import Mathlib

/-!
Verification development for the VaccineWeekly repository.

The repository has two source files of core logic:
* src/services/wecomService.ts — the chunked delivery pipeline (sendToWeCom):
  splits content into line-respecting chunks bounded by CHUNK_SIZE and sends
  them sequentially, aborting on the first failure.
* src/App.tsx — the workflow state machine (executeSend, startGeneration, the
  Approve control) and the Friday-16:30 scheduler with day-keyed deduplication.

Strings are modelled as List Char (one element per UTF-16 code unit of the
JavaScript string; the JS .length is the list length).  Fallible external
calls (fetch, the Gemini generation call) are modelled by explicit outcome
parameters.  All definitions below are transcribed from the TypeScript source.
-/

set_option maxRecDepth 8000

namespace VaccineWeekly

/-! ## Chunked delivery pipeline: splitting (src/services/wecomService.ts) -/

/-- The hard-coded chunk size from wecomService.ts line 13. -/
def CHUNK_SIZE : Nat := 1024

/-- JavaScript `content.split('\n')` (wecomService.ts line 20).
Splitting the empty string yields one empty line, as in JS. -/
def splitLines : List Char → List (List Char)
  | [] => [[]]
  | c :: rest =>
    if c = '\n' then [] :: splitLines rest
    else
      match splitLines rest with
      | [] => [[c]]
      | l :: ls => (c :: l) :: ls

/-- JavaScript `array.join('\n')`: join a list of lines with newline
separators (this is the spec's notion of chunk concatenation). -/
def joinNl : List (List Char) → List Char
  | [] => []
  | [l] => l
  | l :: l2 :: ls => l ++ '\n' :: joinNl (l2 :: ls)

/-- One iteration of the for-loop in wecomService.ts lines 23-32: given the
accumulated chunk list and the current chunk, process the next line.
`cur.isEmpty` mirrors JS truthiness of `currentChunk`. -/
def chunkStep (M : Nat) (chunks : List (List Char)) (cur : List Char)
    (line : List Char) : List (List Char) × List Char :=
  if cur.length + line.length + 1 > M then
    (if cur.isEmpty then chunks else chunks ++ [cur], line)
  else
    (chunks, if cur.isEmpty then line else cur ++ '\n' :: line)

/-- The whole for-loop of wecomService.ts lines 23-32. -/
def chunkAux (M : Nat) : List (List Char) → List (List Char) → List Char →
    List (List Char) × List Char
  | [], chunks, cur => (chunks, cur)
  | l :: rest, chunks, cur =>
    let p := chunkStep M chunks cur l
    chunkAux M rest p.1 p.2

/-- `if (currentChunk) chunks.push(currentChunk)` — wecomService.ts line 34. -/
def finishChunks (p : List (List Char) × List Char) : List (List Char) :=
  if p.2.isEmpty then p.1 else p.1 ++ [p.2]

/-- The chunk list produced from a list of lines (loop plus final push). -/
def buildChunks (M : Nat) (lines : List (List Char)) : List (List Char) :=
  finishChunks (chunkAux M lines [] [])

/-- The full splitting stage of sendToWeCom (wecomService.ts lines 15-34),
parameterised by the maximum chunk size `M` (the source fixes `M` to
`CHUNK_SIZE`). -/
def splitContent (content : List Char) (M : Nat) : List (List Char) :=
  buildChunks M (splitLines content)

/-! ### Basic lemmas about splitLines and joinNl -/

theorem splitLines_ne_nil (s : List Char) : splitLines s ≠ [] := by
  cases s with
  | nil => simp [splitLines]
  | cons c rest =>
    simp only [splitLines]
    split
    · simp
    · split <;> simp

theorem joinNl_cons_ne (l : List Char) (L : List (List Char)) (h : L ≠ []) :
    joinNl (l :: L) = l ++ '\n' :: joinNl L := by
  cases L with
  | nil => exact absurd rfl h
  | cons a t => rfl

theorem joinNl_splitLines (s : List Char) : joinNl (splitLines s) = s := by
  induction s with
  | nil => rfl
  | cons c rest ih =>
    by_cases hc : c = '\n'
    · subst hc
      rw [show splitLines ('\n' :: rest) = [] :: splitLines rest from by
        simp [splitLines]]
      rw [joinNl_cons_ne _ _ (splitLines_ne_nil rest)]
      simp [ih]
    · obtain ⟨l, ls, hls⟩ : ∃ l ls, splitLines rest = l :: ls := by
        cases h : splitLines rest with
        | nil => exact absurd h (splitLines_ne_nil rest)
        | cons l ls => exact ⟨l, ls, rfl⟩
      rw [show splitLines (c :: rest) = (c :: l) :: ls from by
        simp only [splitLines, if_neg hc, hls]]
      rw [hls] at ih
      cases ls with
      | nil => simpa [joinNl] using congrArg (c :: ·) ih
      | cons l2 ls' =>
        rw [joinNl_cons_ne _ _ (by simp)] at ih ⊢
        simpa using congrArg (c :: ·) ih

theorem splitLines_no_nl (s : List Char) : ∀ l ∈ splitLines s, '\n' ∉ l := by
  induction s with
  | nil => simp [splitLines]
  | cons c rest ih =>
    by_cases hc : c = '\n'
    · subst hc
      rw [show splitLines ('\n' :: rest) = [] :: splitLines rest from by
        simp [splitLines]]
      intro l hl
      rcases List.mem_cons.mp hl with h | h
      · simp [h]
      · exact ih _ h
    · obtain ⟨l, ls, hls⟩ : ∃ l ls, splitLines rest = l :: ls := by
        cases h : splitLines rest with
        | nil => exact absurd h (splitLines_ne_nil rest)
        | cons l ls => exact ⟨l, ls, rfl⟩
      rw [show splitLines (c :: rest) = (c :: l) :: ls from by
        simp only [splitLines, if_neg hc, hls]]
      intro l' hl'
      rcases List.mem_cons.mp hl' with h | h
      · subst h
        intro hmem
        rcases List.mem_cons.mp hmem with h | h
        · exact hc h.symm
        · exact ih l (by simp [hls]) h
      · exact ih l' (by simp [hls, h])

theorem joinNl_append_single (ls : List (List Char)) (h : ls ≠ [])
    (l : List Char) : joinNl (ls ++ [l]) = joinNl ls ++ '\n' :: l := by
  induction ls with
  | nil => exact absurd rfl h
  | cons a t ih =>
    cases t with
    | nil => rfl
    | cons b t' =>
      have h1 : joinNl ((a :: b :: t') ++ [l]) =
          a ++ '\n' :: joinNl ((b :: t') ++ [l]) := by
        rw [List.cons_append]
        exact joinNl_cons_ne a ((b :: t') ++ [l]) (by simp)
      have h3 : joinNl (a :: b :: t') = a ++ '\n' :: joinNl (b :: t') :=
        joinNl_cons_ne a (b :: t') (by simp)
      rw [h1, ih (by simp), h3]
      simp

theorem joinNl_merge (xs : List (List Char)) (a b : List Char)
    (t : List (List Char)) :
    joinNl (xs ++ (a ++ '\n' :: b) :: t) = joinNl (xs ++ a :: b :: t) := by
  induction xs with
  | nil =>
    cases t with
    | nil =>
      simp only [List.nil_append]
      rw [joinNl_cons_ne a [b] (by simp)]
      rfl
    | cons u t' =>
      simp only [List.nil_append]
      rw [joinNl_cons_ne (a ++ '\n' :: b) (u :: t') (by simp),
        joinNl_cons_ne a (b :: u :: t') (by simp),
        joinNl_cons_ne b (u :: t') (by simp)]
      simp
  | cons x xs' ih =>
    simp only [List.cons_append]
    rw [joinNl_cons_ne x (xs' ++ (a ++ '\n' :: b) :: t) (by simp),
      joinNl_cons_ne x (xs' ++ a :: b :: t) (by simp), ih]

/-! ### Reconstruction invariant of the chunking loop -/

/-- So long as the current chunk is nonempty and every remaining line is
nonempty, the loop keeps the joined value of (pushed chunks, current chunk,
remaining lines) constant, and ends with a nonempty current chunk. -/
theorem chunkAux_join (M : Nat) (lines : List (List Char)) :
    ∀ (chunks : List (List Char)) (cur : List Char),
      (∀ l ∈ lines, l ≠ []) → cur ≠ [] →
      (chunkAux M lines chunks cur).2 ≠ [] ∧
        joinNl ((chunkAux M lines chunks cur).1 ++
          [(chunkAux M lines chunks cur).2]) = joinNl (chunks ++ cur :: lines) := by
  induction lines with
  | nil =>
    intro chunks cur _ hcur
    exact ⟨hcur, rfl⟩
  | cons l rest ih =>
    intro chunks cur hl hcur
    have hlne : l ≠ [] := hl l (List.mem_cons_self l rest)
    have hrest : ∀ l' ∈ rest, l' ≠ [] := fun l' h => hl l' (List.mem_cons_of_mem l h)
    have hunf : chunkAux M (l :: rest) chunks cur =
        chunkAux M rest (chunkStep M chunks cur l).1 (chunkStep M chunks cur l).2 := rfl
    rw [hunf]
    by_cases hover : cur.length + l.length + 1 > M
    · have hstep : chunkStep M chunks cur l = (chunks ++ [cur], l) := by
        simp [chunkStep, hover, List.isEmpty_iff, hcur]
      rw [hstep]
      obtain ⟨h1, h2⟩ := ih (chunks ++ [cur]) l hrest hlne
      refine ⟨h1, ?_⟩
      rw [h2]
      simp
    · have hstep : chunkStep M chunks cur l = (chunks, cur ++ '\n' :: l) := by
        simp [chunkStep, hover, List.isEmpty_iff, hcur]
      rw [hstep]
      obtain ⟨h1, h2⟩ := ih chunks (cur ++ '\n' :: l) hrest (by simp)
      refine ⟨h1, ?_⟩
      rw [h2, joinNl_merge]

/-- C1 (counterexample): the split is NOT lossless for content with a leading
newline.  For C = "\na" (and the source's maximum chunk size 1024), the first,
empty line is dropped: the chunks are ["a"], which join back to "a" ≠ C.
This refutes the claim that joining the chunks reproduces every content
string, in particular content with leading newlines. -/
theorem split_join_lossless_cex :
    joinNl (splitContent ['\n', 'a'] 1024) = ['a'] ∧
      joinNl (splitContent ['\n', 'a'] 1024) ≠ ['\n', 'a'] := by
  constructor
  · rfl
  · decide

/-- C1 (amended): joining the chunks with newline separators reproduces the
content exactly whenever the content is empty, or every one of its lines is
nonempty (no leading newline, no trailing newline, no empty interior line).
An empty line encountered while the current chunk is empty — at the start of
the content, or right after a chunk-closing overflow — is silently dropped,
so losslessness fails there (see the counterexample). -/
theorem split_join_lossless (content : List Char) (M : Nat)
    (h : content = [] ∨ ∀ l ∈ splitLines content, l ≠ []) :
    joinNl (splitContent content M) = content := by
  rcases h with h | h
  · subst h
    show joinNl (finishChunks (chunkAux M (splitLines []) [] [])) = []
    have hsplit : splitLines [] = [[]] := rfl
    rw [hsplit]
    have hunf : chunkAux M [[]] [] [] =
        chunkAux M [] (chunkStep M [] [] []).1 (chunkStep M [] [] []).2 := rfl
    rw [hunf]
    have hstep : chunkStep M [] [] [] = ([], []) := by
      simp [chunkStep]
    rw [hstep]
    rfl
  · obtain ⟨l0, rest, hls⟩ : ∃ l0 rest, splitLines content = l0 :: rest := by
      cases hsl : splitLines content with
      | nil => exact absurd hsl (splitLines_ne_nil content)
      | cons l0 rest => exact ⟨l0, rest, rfl⟩
    have hl0 : l0 ≠ [] := h l0 (by simp [hls])
    have hrest : ∀ l ∈ rest, l ≠ [] := fun l hm => h l (by simp [hls, hm])
    show joinNl (finishChunks (chunkAux M (splitLines content) [] [])) = content
    rw [hls]
    have hunf : chunkAux M (l0 :: rest) [] [] =
        chunkAux M rest (chunkStep M [] [] l0).1 (chunkStep M [] [] l0).2 := rfl
    have hstep : chunkStep M [] [] l0 = ([], l0) := by
      by_cases hover : (0 : Nat) + l0.length + 1 > M <;>
        simp [chunkStep, hover]
    rw [hunf, hstep]
    obtain ⟨h1, h2⟩ := chunkAux_join M rest [] l0 hrest hl0
    have hfin : finishChunks (chunkAux M rest [] l0) =
        (chunkAux M rest [] l0).1 ++ [(chunkAux M rest [] l0).2] := by
      simp [finishChunks, List.isEmpty_iff, h1]
    rw [hfin, h2]
    have := joinNl_splitLines content
    rw [hls] at this
    simpa using this

/-- C1 (witness): a content string whose lines are all nonempty, at the
source's chunk size. -/
theorem split_join_lossless_witness :
    (['a', '\n', 'b'] = ([] : List Char) ∨
        ∀ l ∈ splitLines ['a', '\n', 'b'], l ≠ []) ∧
      joinNl (splitContent ['a', '\n', 'b'] 1024) = ['a', '\n', 'b'] :=
  ⟨Or.inr (by decide), split_join_lossless ['a', '\n', 'b'] 1024 (Or.inr (by decide))⟩

/-! ### Size bound and line integrity of chunks -/

/-- A well-formed chunk with respect to the source line list `L` and the
maximum size `M`: it can exceed `M` only by being a single whole source line
(containing no newline), and it is the newline-join of a nonempty contiguous
run of source lines (so no line is ever broken across two chunks). -/
def goodChunk (L : List (List Char)) (M : Nat) (c : List Char) : Prop :=
  (M < c.length → c ∈ L ∧ '\n' ∉ c) ∧
    ∃ ls pre post, ls ≠ [] ∧ pre ++ (ls ++ post) = L ∧ c = joinNl ls

theorem chunkAux_good (M : Nat) (L : List (List Char))
    (hL : ∀ l ∈ L, '\n' ∉ l) :
    ∀ (rest done chunks : List (List Char)) (cur : List Char)
      (lsCur : List (List Char)),
      done ++ rest = L →
      (∀ c ∈ chunks, goodChunk L M c) →
      cur = joinNl lsCur →
      (∃ pre, pre ++ lsCur = done) →
      (M < cur.length → cur ∈ L ∧ '\n' ∉ cur) →
      ∀ c ∈ finishChunks (chunkAux M rest chunks cur), goodChunk L M c := by
  intro rest
  induction rest with
  | nil =>
    intro done chunks cur lsCur hdone hchunks hcur hpre hlen c hc
    by_cases hemp : cur = []
    · rw [show finishChunks (chunkAux M [] chunks cur) = chunks from by
        simp [chunkAux, finishChunks, List.isEmpty_iff, hemp]] at hc
      exact hchunks c hc
    · rw [show finishChunks (chunkAux M [] chunks cur) = chunks ++ [cur] from by
        simp [chunkAux, finishChunks, List.isEmpty_iff, hemp]] at hc
      rcases List.mem_append.mp hc with h | h
      · exact hchunks c h
      · have hcc : c = cur := by simpa using h
        subst hcc
        refine ⟨hlen, lsCur, ?_⟩
        obtain ⟨pre, hp⟩ := hpre
        refine ⟨pre, [], ?_, ?_, hcur⟩
        · intro hnil
          rw [hnil] at hcur
          exact hemp hcur
        · simp only [List.append_nil] at hdone ⊢
          rw [hp, hdone]
  | cons l rest' ih =>
    intro done chunks cur lsCur hdone hchunks hcur hpre hlen c hc
    have hlinL : l ∈ L := by
      rw [← hdone]
      simp
    have hunf : chunkAux M (l :: rest') chunks cur =
        chunkAux M rest' (chunkStep M chunks cur l).1 (chunkStep M chunks cur l).2 := rfl
    rw [hunf] at hc
    have hdone' : (done ++ [l]) ++ rest' = L := by
      rw [← hdone]
      simp
    have hcurGood : cur ≠ [] → goodChunk L M cur := by
      intro hemp
      refine ⟨hlen, lsCur, ?_⟩
      obtain ⟨pre, hp⟩ := hpre
      refine ⟨pre, l :: rest', ?_, ?_, hcur⟩
      · intro hnil
        rw [hnil] at hcur
        exact hemp hcur
      · rw [← List.append_assoc, hp, hdone]
    by_cases hover : cur.length + l.length + 1 > M
    · by_cases hemp : cur = []
      · have hstep : chunkStep M chunks cur l = (chunks, l) := by
          simp [chunkStep, hover, List.isEmpty_iff, hemp]
        rw [hstep] at hc
        exact ih (done ++ [l]) chunks l [l] hdone' hchunks rfl
          ⟨done, rfl⟩ (fun _ => ⟨hlinL, hL l hlinL⟩) c hc
      · have hstep : chunkStep M chunks cur l = (chunks ++ [cur], l) := by
          simp [chunkStep, hover, List.isEmpty_iff, hemp]
        rw [hstep] at hc
        refine ih (done ++ [l]) (chunks ++ [cur]) l [l] hdone' ?_ rfl
          ⟨done, rfl⟩ (fun _ => ⟨hlinL, hL l hlinL⟩) c hc
        intro c' hc'
        rcases List.mem_append.mp hc' with h | h
        · exact hchunks c' h
        · have : c' = cur := by simpa using h
          subst this
          exact hcurGood hemp
    · by_cases hemp : cur = []
      · have hstep : chunkStep M chunks cur l = (chunks, l) := by
          simp [chunkStep, hover, List.isEmpty_iff, hemp]
        rw [hstep] at hc
        exact ih (done ++ [l]) chunks l [l] hdone' hchunks rfl
          ⟨done, rfl⟩ (fun _ => ⟨hlinL, hL l hlinL⟩) c hc
      · have hstep : chunkStep M chunks cur l = (chunks, cur ++ '\n' :: l) := by
          simp [chunkStep, hover, List.isEmpty_iff, hemp]
        rw [hstep] at hc
        have hlsne : lsCur ≠ [] := by
          intro hnil
          rw [hnil] at hcur
          exact hemp hcur
        have hjoin : cur ++ '\n' :: l = joinNl (lsCur ++ [l]) := by
          rw [joinNl_append_single lsCur hlsne l, hcur]
        have hlen' : M < (cur ++ '\n' :: l).length →
            (cur ++ '\n' :: l) ∈ L ∧ '\n' ∉ (cur ++ '\n' :: l) := by
          intro hgt
          exfalso
          have : (cur ++ '\n' :: l).length = cur.length + l.length + 1 := by
            rw [List.length_append, List.length_cons]
            omega
          omega
        obtain ⟨pre, hp⟩ := hpre
        exact ih (done ++ [l]) chunks (cur ++ '\n' :: l) (lsCur ++ [l]) hdone'
          hchunks hjoin ⟨pre, by rw [← List.append_assoc, hp]⟩ hlen' c hc

/-- C2: every chunk produced by the split either fits in the maximum size M,
or is a single whole source line (newline-free, hence a line whose own length
exceeds M); and every chunk is the newline-join of a nonempty contiguous run
of the source's lines, so no line is ever broken across two chunks. -/
theorem chunk_bounds (C : List Char) (M : Nat) :
    ∀ c ∈ splitContent C M,
      (M < c.length → c ∈ splitLines C ∧ '\n' ∉ c) ∧
        ∃ ls pre post, ls ≠ [] ∧ pre ++ (ls ++ post) = splitLines C ∧
          c = joinNl ls := by
  intro c hc
  exact chunkAux_good M (splitLines C) (splitLines_no_nl C) (splitLines C)
    [] [] [] [] rfl (by simp) rfl ⟨[], rfl⟩ (by simp) c hc

/-- C2 (witness): a two-line content at the source's chunk size; the chunk
"a\nb" satisfies both conclusions. -/
theorem chunk_bounds_witness :
    ['a', '\n', 'b'] ∈ splitContent ['a', '\n', 'b'] 1024 ∧
      ((1024 < (['a', '\n', 'b'] : List Char).length →
          ['a', '\n', 'b'] ∈ splitLines ['a', '\n', 'b'] ∧
            '\n' ∉ (['a', '\n', 'b'] : List Char)) ∧
        ∃ ls pre post, ls ≠ [] ∧
          pre ++ (ls ++ post) = splitLines ['a', '\n', 'b'] ∧
          ['a', '\n', 'b'] = joinNl ls) :=
  ⟨by decide, chunk_bounds ['a', '\n', 'b'] 1024 ['a', '\n', 'b'] (by decide)⟩

/-! ## Chunked delivery pipeline: transmission (wecomService.ts lines 36-78)

The remote sink is external; its behaviour is modelled by a function giving,
for each request index, what the fetch for that chunk produced: a thrown
network exception, a non-ok HTTP response, or a parsed structured response
with an errcode/errmsg pair. -/

/-- Outcome of the fetch for one chunk, as seen by the try-block. -/
inductive SinkResponse where
  | netExn (msg : List Char)
  | httpNotOk (status : Nat) (text : List Char)
  | apiReply (errcode : Int) (errmsg : List Char)

/-- The body of the try-block in wecomService.ts lines 47-66, up to the point
where an error is thrown or the chunk is accepted.  The error value is the
message of the thrown Error object. -/
def chunkSendResult : SinkResponse → Except (List Char) Unit
  | SinkResponse.netExn m => Except.error m
  | SinkResponse.httpNotOk status text =>
      Except.error ("HTTP ".data ++ Nat.toDigits 10 status ++ ": ".data ++ text)
  | SinkResponse.apiReply errcode errmsg =>
      if errcode = 0 then Except.ok ()
      else Except.error ("WeCom API Error (".data ++ (Int.repr errcode).data ++
        "): ".data ++ errmsg)

/-- A JSON value, as far as the payload shape needs. -/
inductive Json where
  | str (s : List Char)
  | obj (fields : List (List Char × Json))

/-- The key of the first field of a JSON object (discriminates shapes). -/
def firstKey : Json → List Char
  | Json.obj ((k, _) :: _) => k
  | _ => []

/-- The payload built for one chunk — wecomService.ts lines 42-45:
`{ msgtype: "markdown", markdown: { content: chunk } }`. -/
def buildPayload (chunk : List Char) : Json :=
  Json.obj [("msgtype".data, Json.str "markdown".data),
            ("markdown".data, Json.obj [("content".data, Json.str chunk)])]

/-- The console.error text of wecomService.ts line 74:
`Failed to send chunk ${i + 1}/${chunks.length}`. -/
def consoleFailText (k n : Nat) : List Char :=
  "Failed to send chunk ".data ++ Nat.toDigits 10 k ++ "/".data ++
    Nat.toDigits 10 n

/-- The sequential send loop of wecomService.ts lines 40-78.  Returns the
payloads actually POSTed (in order), the console.error entries (text plus the
error that was logged alongside), and the overall outcome: `Except.error e`
when a chunk failed (the function re-throws the underlying error unchanged),
`Except.ok ()` when every chunk was accepted. -/
def deliverLoop (resp : Nat → SinkResponse) (n : Nat) :
    Nat → List (List Char) →
    List Json × List (List Char × List Char) × Except (List Char) Unit
  | _, [] => ([], [], Except.ok ())
  | i, c :: rest =>
    match chunkSendResult (resp i) with
    | Except.ok _ =>
      let r := deliverLoop resp n (i + 1) rest
      (buildPayload c :: r.1, r.2.1, r.2.2)
    | Except.error e =>
      ([buildPayload c], [(consoleFailText (i + 1) n, e)], Except.error e)

/-- sendToWeCom with the chunk size as a parameter: split, then send. -/
def sendToWeComM (resp : Nat → SinkResponse) (content : List Char) (M : Nat) :
    List Json × List (List Char × List Char) × Except (List Char) Unit :=
  deliverLoop resp (splitContent content M).length 0 (splitContent content M)

/-- The exported sendToWeCom (wecomService.ts line 7), at the source's fixed
CHUNK_SIZE. -/
def sendToWeCom (resp : Nat → SinkResponse) (content : List Char) :
    List Json × List (List Char × List Char) × Except (List Char) Unit :=
  sendToWeComM resp content CHUNK_SIZE

/-! ### Lemmas about the send loop -/

/-- If the first k sends (from offset i) succeed and send k fails, the loop
posts exactly the first k+1 payloads, logs one console entry naming chunk
number k+1 of n, and re-throws the underlying error unchanged. -/
theorem deliverLoop_fail (resp : Nat → SinkResponse) (n : Nat)
    (e : List Char) :
    ∀ (cs : List (List Char)) (i k : Nat), k < cs.length →
      (∀ j, j < k → chunkSendResult (resp (i + j)) = Except.ok ()) →
      chunkSendResult (resp (i + k)) = Except.error e →
      deliverLoop resp n i cs =
        ((cs.take (k + 1)).map buildPayload,
          [(consoleFailText (i + k + 1) n, e)], Except.error e) := by
  intro cs
  induction cs with
  | nil =>
    intro i k hk _ _
    exact absurd hk (by simp)
  | cons c rest ih =>
    intro i k hk hok hfail
    have hunf : deliverLoop resp n i (c :: rest) =
        (match chunkSendResult (resp i) with
          | Except.ok _ =>
            (buildPayload c :: (deliverLoop resp n (i + 1) rest).1,
              (deliverLoop resp n (i + 1) rest).2.1,
              (deliverLoop resp n (i + 1) rest).2.2)
          | Except.error e =>
            ([buildPayload c], [(consoleFailText (i + 1) n, e)],
              Except.error e)) := rfl
    cases k with
    | zero =>
      have h0 : chunkSendResult (resp i) = Except.error e := by
        simpa using hfail
      rw [hunf, h0]
      simp
    | succ k' =>
      have h0 : chunkSendResult (resp i) = Except.ok () := by
        simpa using hok 0 (Nat.succ_pos k')
      have hih := ih (i + 1) k' (by simpa using Nat.lt_of_succ_lt_succ hk)
        (fun j hj => by
          have hjj := hok (j + 1) (Nat.succ_lt_succ hj)
          have harith : i + (j + 1) = i + 1 + j := by omega
          rw [harith] at hjj
          exact hjj)
        (by
          have harith : i + 1 + k' = i + (k' + 1) := by omega
          rw [harith]
          exact hfail)
      rw [hunf, h0, hih]
      have harith : i + 1 + k' + 1 = i + (k' + 1) + 1 := by omega
      rw [harith]
      simp

/-- The payloads the loop posts are always those of a prefix of the chunk
list (delivery always proceeds in order from chunk index 0). -/
theorem deliverLoop_posted_prefix (resp : Nat → SinkResponse) (n : Nat) :
    ∀ (cs : List (List Char)) (i : Nat),
      ∃ m, (deliverLoop resp n i cs).1 = (cs.take m).map buildPayload := by
  intro cs
  induction cs with
  | nil =>
    intro i
    exact ⟨0, rfl⟩
  | cons c rest ih =>
    intro i
    have hunf : deliverLoop resp n i (c :: rest) =
        (match chunkSendResult (resp i) with
          | Except.ok _ =>
            (buildPayload c :: (deliverLoop resp n (i + 1) rest).1,
              (deliverLoop resp n (i + 1) rest).2.1,
              (deliverLoop resp n (i + 1) rest).2.2)
          | Except.error e =>
            ([buildPayload c], [(consoleFailText (i + 1) n, e)],
              Except.error e)) := rfl
    cases hr : chunkSendResult (resp i) with
    | ok u =>
      obtain ⟨m, hm⟩ := ih (i + 1)
      refine ⟨m + 1, ?_⟩
      rw [hunf, hr]
      simp [hm]
    | error e =>
      refine ⟨1, ?_⟩
      rw [hunf, hr]
      simp

/-- A sink that accepts everything (errcode 0). -/
def respOkAll : Nat → SinkResponse := fun _ => SinkResponse.apiReply 0 []

/-- A sink whose second request (index 1) throws a network exception with
message "boom" and which accepts everything else. -/
def respCex : Nat → SinkResponse := fun i =>
  if i = 1 then SinkResponse.netExn "boom".data else SinkResponse.apiReply 0 []

/-- C3 (counterexample): delivering "a\nb\nc" with max chunk size 1 produces
three chunks; chunk 1 fails with a thrown network exception "boom".  Exactly
chunks 0 and 1 are posted — but the error returned to the caller is the
re-thrown underlying error "boom", whose text contains no digit at all, so it
carries neither the failing chunk index (1) nor the total chunk count (3).
The index and count appear only in the console.error text, which is not
returned to the caller. -/
theorem abort_on_failure_cex :
    (sendToWeComM respCex ('a' :: '\n' :: 'b' :: '\n' :: 'c' :: []) 1).2.2 =
        Except.error "boom".data ∧
      (sendToWeComM respCex ('a' :: '\n' :: 'b' :: '\n' :: 'c' :: []) 1).1 =
        [buildPayload ['a'], buildPayload ['b']] ∧
      (splitContent ('a' :: '\n' :: 'b' :: '\n' :: 'c' :: []) 1).length = 3 ∧
      "boom".data.filter Char.isDigit = [] :=
  ⟨rfl, rfl, rfl, rfl⟩

/-- C3 (amended): when the send of chunk k fails — by exception, non-success
HTTP status, or non-zero errcode, all mapped to `Except.error` by
`chunkSendResult` — exactly chunks 0..k are posted and chunks k+1..n-1 are
never sent; the error returned to the caller is the underlying error message
alone, while the failing chunk number (k+1) and the total chunk count are
emitted to the console log, not carried on the returned error. -/
theorem abort_on_failure (resp : Nat → SinkResponse) (content : List Char)
    (M k : Nat) (e : List Char)
    (hk : k < (splitContent content M).length)
    (hok : ∀ j, j < k → chunkSendResult (resp j) = Except.ok ())
    (hfail : chunkSendResult (resp k) = Except.error e) :
    sendToWeComM resp content M =
      (((splitContent content M).take (k + 1)).map buildPayload,
        [(consoleFailText (k + 1) (splitContent content M).length, e)],
        Except.error e) := by
  have h := deliverLoop_fail resp (splitContent content M).length e
    (splitContent content M) 0 k hk
    (fun j hj => by simpa using hok j hj) (by simpa using hfail)
  simpa using h

/-- C3 (witness): the concrete failing delivery of the counterexample,
satisfying the amended description. -/
theorem abort_on_failure_witness :
    sendToWeComM respCex ('a' :: '\n' :: 'b' :: '\n' :: 'c' :: []) 1 =
      (((splitContent ('a' :: '\n' :: 'b' :: '\n' :: 'c' :: []) 1).take 2).map
          buildPayload,
        [(consoleFailText 2
            (splitContent ('a' :: '\n' :: 'b' :: '\n' :: 'c' :: []) 1).length,
          "boom".data)],
        Except.error "boom".data) :=
  abort_on_failure respCex ('a' :: '\n' :: 'b' :: '\n' :: 'c' :: []) 1 1
    "boom".data (by decide)
    (fun j hj => by
      have hj0 : j = 0 := by omega
      subst hj0
      rfl)
    rfl

/-- C9 (counterexample): the payload actually posted for the (transmitted)
chunk "hi" is `{msgtype: "markdown", markdown: {content: "hi"}}`, which is
not the structured object `{type: "markdown", content: "hi"}` stated by the
claim (its first key is "msgtype", not "type", and the chunk text sits under
the nested markdown object). -/
theorem payload_shape_cex :
    buildPayload ['h', 'i'] ∈ (sendToWeCom respOkAll ['h', 'i']).1 ∧
      buildPayload ['h', 'i'] ≠
        Json.obj [("type".data, Json.str "markdown".data),
          ("content".data, Json.str ['h', 'i'])] := by
  constructor
  · have h : (sendToWeCom respOkAll ['h', 'i']).1 =
        [buildPayload ['h', 'i']] := rfl
    rw [h]
    exact List.mem_singleton.mpr rfl
  · intro h
    exact absurd (congrArg firstKey h) (by decide)

/-- C9 (amended): every payload the pipeline posts is the structured object
`{msgtype: "markdown", markdown: {content: <chunk text>}}` for one of the
chunks of the delivery (the type tag sits under the key `msgtype` and the
chunk text under the nested `markdown.content`, not under top-level `type`
and `content` keys). -/
theorem payload_shape (resp : Nat → SinkResponse) (n i : Nat)
    (cs : List (List Char)) :
    ∀ p ∈ (deliverLoop resp n i cs).1, ∃ c, c ∈ cs ∧
      p = Json.obj [("msgtype".data, Json.str "markdown".data),
        ("markdown".data, Json.obj [("content".data, Json.str c)])] := by
  induction cs generalizing i with
  | nil =>
    intro p hp
    exact absurd hp (by simp [deliverLoop])
  | cons c rest ih =>
    intro p hp
    have hunf : deliverLoop resp n i (c :: rest) =
        (match chunkSendResult (resp i) with
          | Except.ok _ =>
            (buildPayload c :: (deliverLoop resp n (i + 1) rest).1,
              (deliverLoop resp n (i + 1) rest).2.1,
              (deliverLoop resp n (i + 1) rest).2.2)
          | Except.error e =>
            ([buildPayload c], [(consoleFailText (i + 1) n, e)],
              Except.error e)) := rfl
    rw [hunf] at hp
    cases hr : chunkSendResult (resp i) with
    | ok u =>
      rw [hr] at hp
      rcases List.mem_cons.mp hp with h | h
      · exact ⟨c, List.mem_cons_self c rest, h⟩
      · obtain ⟨c', hc', hshape⟩ := ih (i + 1) p h
        exact ⟨c', List.mem_cons_of_mem c hc', hshape⟩
    | error e =>
      rw [hr] at hp
      have hpc : p = buildPayload c := by simpa using hp
      exact ⟨c, List.mem_cons_self c rest, hpc⟩

/-- C9 (witness): the posted payload for the single chunk "hi" has the
amended shape. -/
theorem payload_shape_witness :
    buildPayload ['h', 'i'] ∈ (deliverLoop respOkAll 1 0 [['h', 'i']]).1 ∧
      ∃ c, c ∈ [['h', 'i']] ∧
        buildPayload ['h', 'i'] =
          Json.obj [("msgtype".data, Json.str "markdown".data),
            ("markdown".data, Json.obj [("content".data, Json.str c)])] :=
  ⟨by
      have h : (deliverLoop respOkAll 1 0 [['h', 'i']]).1 =
          [buildPayload ['h', 'i']] := rfl
      rw [h]
      exact List.mem_singleton.mpr rfl,
    payload_shape respOkAll 1 0 [['h', 'i']] (buildPayload ['h', 'i']) (by
      have h : (deliverLoop respOkAll 1 0 [['h', 'i']]).1 =
          [buildPayload ['h', 'i']] := rfl
      rw [h]
      exact List.mem_singleton.mpr rfl)⟩

/-! ### Degenerate content (C10) -/

theorem splitLines_all_nl {s : List Char} (h : ∀ ch ∈ s, ch = '\n') :
    ∀ l ∈ splitLines s, l = [] := by
  induction s with
  | nil =>
    simp [splitLines]
  | cons c rest ih =>
    have hc : c = '\n' := h c (List.mem_cons_self c rest)
    subst hc
    rw [show splitLines ('\n' :: rest) = [] :: splitLines rest from by
      simp [splitLines]]
    intro l hl
    rcases List.mem_cons.mp hl with h' | h'
    · exact h'
    · exact ih (fun ch hch => h ch (List.mem_cons_of_mem _ hch)) l h'

theorem chunkAux_nil_lines (M : Nat) :
    ∀ (lines chunks : List (List Char)), (∀ l ∈ lines, l = []) →
      chunkAux M lines chunks [] = (chunks, []) := by
  intro lines
  induction lines with
  | nil =>
    intro chunks _
    rfl
  | cons l rest ih =>
    intro chunks h
    have hl : l = [] := h l (List.mem_cons_self l rest)
    subst hl
    have hstep : chunkStep M chunks [] [] = (chunks, []) := by
      by_cases hm : (0 : Nat) + 0 + 1 > M <;> simp [chunkStep, hm]
    have hunf : chunkAux M ([] :: rest) chunks [] =
        chunkAux M rest (chunkStep M chunks [] []).1
          (chunkStep M chunks [] []).2 := rfl
    rw [hunf, hstep]
    exact ih chunks (fun l' hl' => h l' (List.mem_cons_of_mem _ hl'))

theorem chunks_ne_nil (M : Nat) :
    ∀ (lines chunks : List (List Char)) (cur : List Char),
      (∀ c ∈ chunks, c ≠ []) →
      ∀ c ∈ finishChunks (chunkAux M lines chunks cur), c ≠ [] := by
  intro lines
  induction lines with
  | nil =>
    intro chunks cur h c hc
    by_cases hemp : cur = []
    · rw [show finishChunks (chunkAux M [] chunks cur) = chunks from by
        simp [chunkAux, finishChunks, List.isEmpty_iff, hemp]] at hc
      exact h c hc
    · rw [show finishChunks (chunkAux M [] chunks cur) = chunks ++ [cur] from by
        simp [chunkAux, finishChunks, List.isEmpty_iff, hemp]] at hc
      rcases List.mem_append.mp hc with h' | h'
      · exact h c h'
      · have : c = cur := by simpa using h'
        rw [this]
        exact hemp
  | cons l rest ih =>
    intro chunks cur h c hc
    have hunf : chunkAux M (l :: rest) chunks cur =
        chunkAux M rest (chunkStep M chunks cur l).1
          (chunkStep M chunks cur l).2 := rfl
    rw [hunf] at hc
    by_cases hover : cur.length + l.length + 1 > M
    · by_cases hemp : cur = []
      · have hstep : chunkStep M chunks cur l = (chunks, l) := by
          simp [chunkStep, hover, List.isEmpty_iff, hemp]
        rw [hstep] at hc
        exact ih chunks l h c hc
      · have hstep : chunkStep M chunks cur l = (chunks ++ [cur], l) := by
          simp [chunkStep, hover, List.isEmpty_iff, hemp]
        rw [hstep] at hc
        refine ih (chunks ++ [cur]) l ?_ c hc
        intro c' hc'
        rcases List.mem_append.mp hc' with h' | h'
        · exact h c' h'
        · have : c' = cur := by simpa using h'
          rw [this]
          exact hemp
    · by_cases hemp : cur = []
      · have hstep : chunkStep M chunks cur l = (chunks, l) := by
          simp [chunkStep, hover, List.isEmpty_iff, hemp]
        rw [hstep] at hc
        exact ih chunks l h c hc
      · have hstep : chunkStep M chunks cur l = (chunks, cur ++ '\n' :: l) := by
          simp [chunkStep, hover, List.isEmpty_iff, hemp]
        rw [hstep] at hc
        exact ih chunks (cur ++ '\n' :: l) h c hc

/-- C10: for content that is empty or consists only of newline characters,
the split yields no chunks, the delivery performs zero transmissions and
resolves successfully; and in general no chunk the pipeline produces (hence
none it transmits) is the empty string. -/
theorem empty_content_delivery (content : List Char) (M : Nat)
    (resp : Nat → SinkResponse) (h : ∀ ch ∈ content, ch = '\n') :
    splitContent content M = [] ∧
      sendToWeComM resp content M = ([], [], Except.ok ()) ∧
      ∀ (C : List Char) (N : Nat), ∀ c ∈ splitContent C N, c ≠ [] := by
  have h1 : splitContent content M = [] := by
    show finishChunks (chunkAux M (splitLines content) [] []) = []
    rw [chunkAux_nil_lines M (splitLines content) [] (splitLines_all_nl h)]
    rfl
  refine ⟨h1, ?_, ?_⟩
  · show deliverLoop resp (splitContent content M).length 0
      (splitContent content M) = ([], [], Except.ok ())
    rw [h1]
    rfl
  · intro C N c hc
    exact chunks_ne_nil N (splitLines C) [] [] (by simp) c hc

/-- C10 (witness): content consisting of two newline characters. -/
theorem empty_content_delivery_witness :
    (∀ ch ∈ ('\n' :: '\n' :: []), ch = '\n') ∧
      (splitContent ('\n' :: '\n' :: []) 1024 = [] ∧
        sendToWeComM respOkAll ('\n' :: '\n' :: []) 1024 =
          ([], [], Except.ok ()) ∧
        ∀ (C : List Char) (N : Nat), ∀ c ∈ splitContent C N, c ≠ []) :=
  ⟨by decide, empty_content_delivery ('\n' :: '\n' :: []) 1024 respOkAll (by decide)⟩

/-! ## Workflow state machine (src/App.tsx)

BotStatus mirrors the enumeration used throughout App.tsx (the spec's
Idle/Failed are the source's WAITING/ERROR).  The log id and timestamp are
presentation-only (random id, wall-clock time) and are not modelled; a log
entry is its message and severity.  The await points of the single-threaded
event loop are collapsed: each handler runs to completion, which matches the
cooperative scheduling of the source. -/

inductive BotStatus where
  | WAITING
  | SEARCHING
  | GENERATING
  | REVIEWING
  | SENDING
  | COMPLETED
  | ERROR
deriving DecidableEq

inductive LogType where
  | info
  | success
  | warning
  | error
deriving DecidableEq

/-- The mutable React state of App.tsx that the core logic touches, plus
three observability fields: `statusTrace` records every setStatus call in
order, `genCalls` counts invocations of the generation collaborator
(generateWeeklyReport), and `dispatches` records each content string handed
to sendToWeCom. -/
structure AppState where
  status : BotStatus
  logs : List (List Char × LogType)
  lastReport : List Char
  timers : List Nat
  statusTrace : List BotStatus
  genCalls : Nat
  dispatches : List (List Char)
deriving DecidableEq

/-- `setStatus(b)` — also appends to the observability trace. -/
def setStatus (b : BotStatus) (s : AppState) : AppState :=
  { s with status := b, statusTrace := s.statusTrace ++ [b] }

/-- `addLog(message, type)` — App.tsx lines 29-36 (id/timestamp dropped). -/
def addLog (m : List Char) (t : LogType) (s : AppState) : AppState :=
  { s with logs := s.logs ++ [(m, t)] }

/-- The callback of every delayed reversion timer in App.tsx (lines 51, 68
and 96): `() => setStatus(BotStatus.WAITING)`.  Note it is unconditional —
it does not check what the current status is when it fires. -/
def fireReversionTimer (s : AppState) : AppState :=
  setStatus BotStatus.WAITING s

def msgSending : List Char := "Sending report to WeCom...".data

def msgSendOk : List Char := "Successfully pushed to Enterprise WeChat.".data

def msgComplete : List Char := "Workflow complete. Resetting for next cycle.".data

/-- `Send Failed: ${error.message}. Please click 'Approve & Send' to retry.`
(the apostrophes are Char 39). -/
def sendFailMsg (e : List Char) : List Char :=
  "Send Failed: ".data ++ e ++ ". Please click ".data ++ [Char.ofNat 39] ++
    "Approve & Send".data ++ [Char.ofNat 39] ++ " to retry.".data

def msgNoKey : List Char := "API Key missing. Cannot execute workflow.".data

def msgStart : List Char := "Starting workflow: Scanning data sources...".data

def msgAnalyse : List Char := "Analysing clinical trials with Gemini 2.5...".data

def msgGenerated : List Char := "Report generated. Preparing for review.".data

def msgReview : List Char := "Paused for manual review. Please approve to send.".data

def genFailMsg (e : List Char) : List Char := "Generation Error: ".data ++ e

/-- `executeSend(content)` — App.tsx lines 39-59.  The outcome of the awaited
sendToWeCom call is determined by the sink behaviour `resp`.  On success:
COMPLETED plus a 60s reversion timer.  On failure: back to REVIEWING with one
error log entry (the alert is presentation-only). -/
def executeSend (resp : Nat → SinkResponse) (content : List Char)
    (s : AppState) : AppState :=
  let s1 := addLog msgSending LogType.info (setStatus BotStatus.SENDING s)
  let s2 := { s1 with dispatches := s1.dispatches ++ [content] }
  match (sendToWeCom resp content).2.2 with
  | Except.ok _ =>
    let s3 := addLog msgSendOk LogType.success s2
    let s4 := addLog msgComplete LogType.success (setStatus BotStatus.COMPLETED s3)
    { s4 with timers := s4.timers ++ [60000] }
  | Except.error e =>
    addLog (sendFailMsg e) LogType.error (setStatus BotStatus.REVIEWING s2)

/-- `startGeneration()` — App.tsx lines 62-98.  `genOutcome` is the result of
the awaited generateWeeklyReport call (the external generation
collaborator). -/
def startGeneration (genOutcome : Except (List Char) (List Char))
    (resp : Nat → SinkResponse) (requireConfirmation : Bool)
    (apiKey : List Char) (s : AppState) : AppState :=
  if s.status = BotStatus.SEARCHING ∨ s.status = BotStatus.GENERATING then s
  else if apiKey.isEmpty then
    let s1 := setStatus BotStatus.ERROR (addLog msgNoKey LogType.error s)
    { s1 with timers := s1.timers ++ [5000] }
  else
    let s1 := addLog msgStart LogType.info (setStatus BotStatus.SEARCHING s)
    let s2 := addLog msgAnalyse LogType.info (setStatus BotStatus.GENERATING s1)
    let s3 := { s2 with genCalls := s2.genCalls + 1 }
    match genOutcome with
    | Except.ok report =>
      let s4 := addLog msgGenerated LogType.success { s3 with lastReport := report }
      if requireConfirmation then
        addLog msgReview LogType.warning (setStatus BotStatus.REVIEWING s4)
      else
        executeSend resp report s4
    | Except.error e =>
      let s4 := addLog (genFailMsg e) LogType.error (setStatus BotStatus.ERROR s3)
      { s4 with timers := s4.timers ++ [60000] }

/-- The approve operation: App.tsx renders the Approve & Send control only
when status is REVIEWING (lines 243-251), and its click handler is
`() => executeSend(lastReport)`; outside REVIEWING the control does not
exist, so invoking approve dispatches nothing. -/
def approve (resp : Nat → SinkResponse) (s : AppState) : AppState :=
  if s.status = BotStatus.REVIEWING then executeSend resp s.lastReport s else s

/-! ## Scheduler (App.tsx lines 100-141) -/

/-- What one scheduler tick observes: the config flag, the sampled local
time, today's day identifier (`toLocaleDateString`), and the current
workflow status. -/
structure TickInput where
  autoMode : Bool
  day : Nat
  hour : Nat
  minute : Nat
  dateKey : List Char
  status : BotStatus
deriving DecidableEq

/-- The trigger condition of App.tsx lines 127-133:
`autoMode && isFriday && isTimeWindow && lastRunDateRef.current !== dateKey
&& status === BotStatus.WAITING` (day 5 is Friday). -/
def shouldFire (autoMode : Bool) (day hour minute : Nat)
    (lastRun dateKey : List Char) (status : BotStatus) : Bool :=
  autoMode && (day == 5) && (hour == 16) && (minute == 30) &&
    !(lastRun == dateKey) && (status == BotStatus.WAITING)

/-- One scheduler tick acting on the TriggerRecord (`lastRunDateRef`):
on fire it stores today's day identifier before invoking the workflow
(App.tsx line 135), and reports whether the workflow was fired. -/
def schedTick (t : TickInput) (lastRun : List Char) : List Char × Bool :=
  if shouldFire t.autoMode t.day t.hour t.minute lastRun t.dateKey t.status
  then (t.dateKey, true) else (lastRun, false)

/-- A sequence of ticks, returning the final TriggerRecord and the number of
fires. -/
def runTicks : List TickInput → List Char → List Char × Nat
  | [], lastRun => (lastRun, 0)
  | t :: ts, lastRun =>
    let r := schedTick t lastRun
    let rest := runTicks ts r.1
    (rest.1, (if r.2 then 1 else 0) + rest.2)

/-! ## Theorems for claims C4-C8 -/

/-- C4: a tick auto-fires the workflow iff autoMode is enabled, the time is
Friday (day 5) 16:30, the stored TriggerRecord differs from today's day
identifier, and the status is WAITING (the spec's Idle); on fire the
TriggerRecord becomes today's identifier; and once the TriggerRecord equals
today's identifier, no sequence of ticks carrying today's identifier ever
fires again, however many eligible ticks occur. -/
theorem auto_fire_rule (a : Bool) (d hr mi : Nat) (lastRun dateKey : List Char)
    (st : BotStatus) :
    ((schedTick ⟨a, d, hr, mi, dateKey, st⟩ lastRun).2 = true ↔
      (a = true ∧ d = 5 ∧ hr = 16 ∧ mi = 30 ∧ lastRun ≠ dateKey ∧
        st = BotStatus.WAITING)) ∧
    ((schedTick ⟨a, d, hr, mi, dateKey, st⟩ lastRun).2 = true →
      (schedTick ⟨a, d, hr, mi, dateKey, st⟩ lastRun).1 = dateKey) ∧
    ∀ ticks : List TickInput, (∀ t ∈ ticks, t.dateKey = dateKey) →
      (runTicks ticks dateKey).2 = 0 := by
  refine ⟨?_, ?_, ?_⟩
  · constructor
    · intro h
      by_cases hf : shouldFire a d hr mi lastRun dateKey st = true
      · simp only [shouldFire, Bool.and_eq_true, beq_iff_eq,
          Bool.not_eq_true', beq_eq_false_iff_ne, ne_eq] at hf
        exact ⟨hf.1.1.1.1.1, hf.1.1.1.1.2, hf.1.1.1.2, hf.1.1.2, hf.1.2, hf.2⟩
      · rw [schedTick, if_neg (by simpa using hf)] at h
        exact absurd h (by simp)
    · intro ⟨h1, h2, h3, h4, h5, h6⟩
      have hf : shouldFire a d hr mi lastRun dateKey st = true := by
        simp [shouldFire, h1, h2, h3, h4, h5, h6]
      rw [schedTick, if_pos (by simpa using hf)]
  · intro h
    by_cases hf : shouldFire a d hr mi lastRun dateKey st = true
    · rw [schedTick, if_pos (by simpa using hf)]
    · rw [schedTick, if_neg (by simpa using hf)] at h
      exact absurd h (by simp)
  · intro ticks
    induction ticks with
    | nil =>
      intro _
      rfl
    | cons t ts ih =>
      intro hall
      have ht : t.dateKey = dateKey := hall t (List.mem_cons_self t ts)
      have hs : schedTick t dateKey = (dateKey, false) := by
        rw [schedTick, if_neg]
        intro hf
        simp only [shouldFire, Bool.and_eq_true, Bool.not_eq_true',
          beq_eq_false_iff_ne, ne_eq] at hf
        exact hf.1.2 ht.symm
      have hunf : runTicks (t :: ts) dateKey =
          ((runTicks ts (schedTick t dateKey).1).1,
            (if (schedTick t dateKey).2 then 1 else 0) +
              (runTicks ts (schedTick t dateKey).1).2) := rfl
      rw [hunf, hs]
      simpa using ih (fun t' ht' => hall t' (List.mem_cons_of_mem t ht'))

/-- C4 (witness): an eligible tick fires when the stored record differs from
today, and a tick carrying today's identifier never fires once the record
already holds it. -/
theorem auto_fire_rule_witness :
    (schedTick ⟨true, 5, 16, 30, ['k'], BotStatus.WAITING⟩ ['j']).2 = true ∧
      (runTicks [⟨true, 5, 16, 30, ['k'], BotStatus.WAITING⟩] ['k']).2 = 0 :=
  ⟨(auto_fire_rule true 5 16 30 ['j'] ['k'] BotStatus.WAITING).1.mpr
      ⟨rfl, rfl, rfl, rfl, by decide, rfl⟩,
    (auto_fire_rule true 5 16 30 ['j'] ['k'] BotStatus.WAITING).2.2
      [⟨true, 5, 16, 30, ['k'], BotStatus.WAITING⟩] (by decide)⟩

/-- The initial App state (status WAITING, everything empty). -/
def initState : AppState := ⟨BotStatus.WAITING, [], [], [], [], 0, []⟩

/-- A state as left by a successful send: COMPLETED with the 60s reversion
timer pending. -/
def s_completed : AppState := ⟨BotStatus.COMPLETED, [], [], [60000], [], 0, []⟩

/-- C5 (counterexample): from COMPLETED (60s reversion timer pending), a new
run moves the machine to REVIEWING; when the pending timer then fires, its
callback `() => setStatus(BotStatus.WAITING)` overwrites REVIEWING with
WAITING even though the status no longer equals the expected source state
COMPLETED (or ERROR).  The claimed fire-time guard does not exist in the
code. -/
theorem reversion_guard_cex :
    (startGeneration (Except.ok ['r']) respOkAll true ['k'] s_completed).status =
        BotStatus.REVIEWING ∧
      (fireReversionTimer
          (startGeneration (Except.ok ['r']) respOkAll true ['k']
            s_completed)).status = BotStatus.WAITING ∧
      BotStatus.REVIEWING ≠ BotStatus.COMPLETED ∧
      BotStatus.REVIEWING ≠ BotStatus.ERROR := by
  refine ⟨by decide, by decide, by decide, by decide⟩

/-- C5 (amended): each delayed reversion timer's callback sets the status to
WAITING (the spec's Idle) unconditionally at fire time — it performs no check
that the status still equals the expected source state, so a state the
machine has already moved on to (for example a new run's Reviewing) is
clobbered back to WAITING; only the status (and its trace) change, all other
fields are untouched. -/
theorem reversion_unconditional (s : AppState) :
    (fireReversionTimer s).status = BotStatus.WAITING ∧
      (fireReversionTimer s).logs = s.logs ∧
      (fireReversionTimer s).lastReport = s.lastReport ∧
      (fireReversionTimer s).timers = s.timers ∧
      (fireReversionTimer s).genCalls = s.genCalls ∧
      (fireReversionTimer s).dispatches = s.dispatches :=
  ⟨rfl, rfl, rfl, rfl, rfl, rfl⟩

/-- C6: invoking approve while the status is anything other than REVIEWING
is a no-op — the whole state (status, logs, everything) is unchanged,
because App.tsx only wires the Approve & Send dispatch when status is
REVIEWING. -/
theorem approve_noop (resp : Nat → SinkResponse) (s : AppState)
    (h : s.status ≠ BotStatus.REVIEWING) : approve resp s = s := by
  unfold approve
  rw [if_neg h]

/-- C6 (witness): approve from the WAITING initial state. -/
theorem approve_noop_witness :
    initState.status ≠ BotStatus.REVIEWING ∧
      approve respOkAll initState = initState :=
  ⟨by decide, approve_noop respOkAll initState (by decide)⟩

/-- Every executeSend call appends at least one log entry. -/
theorem executeSend_logs_lt (resp : Nat → SinkResponse) (c : List Char)
    (s : AppState) : s.logs.length < (executeSend resp c s).logs.length := by
  unfold executeSend
  rcases h : (sendToWeCom resp c).2.2 with _ | e <;> simp [addLog, setStatus]

/-- C7: when delivery fails during Sending, the workflow transitions
SENDING → REVIEWING (not ERROR), the stored report is unchanged, exactly the
info entry and one error entry are appended to the log, a subsequent approve
re-dispatches the very same content, and any delivery posts payloads for a
prefix of the chunk list — i.e. it always re-attempts from chunk 0. -/
theorem send_failure_recovery (resp : Nat → SinkResponse) (content : List Char)
    (s : AppState) (e : List Char)
    (hfail : (sendToWeCom resp content).2.2 = Except.error e) :
    (executeSend resp content s).status = BotStatus.REVIEWING ∧
      (executeSend resp content s).statusTrace =
        s.statusTrace ++ [BotStatus.SENDING, BotStatus.REVIEWING] ∧
      (executeSend resp content s).lastReport = s.lastReport ∧
      (executeSend resp content s).logs =
        s.logs ++ [(msgSending, LogType.info), (sendFailMsg e, LogType.error)] ∧
      ((executeSend resp content s).logs.drop s.logs.length).countP
        (fun l => l.2 == LogType.error) = 1 ∧
      approve resp (executeSend resp content s) =
        executeSend resp s.lastReport (executeSend resp content s) ∧
      ∃ m, (sendToWeCom resp s.lastReport).1 =
        ((splitContent s.lastReport CHUNK_SIZE).take m).map buildPayload := by
  have hstate : executeSend resp content s =
      addLog (sendFailMsg e) LogType.error (setStatus BotStatus.REVIEWING
        { addLog msgSending LogType.info (setStatus BotStatus.SENDING s) with
          dispatches :=
            (addLog msgSending LogType.info
              (setStatus BotStatus.SENDING s)).dispatches ++ [content] }) := by
    unfold executeSend
    rw [hfail]
  have hst : (executeSend resp content s).status = BotStatus.REVIEWING := by
    rw [hstate]
    rfl
  have hlr : (executeSend resp content s).lastReport = s.lastReport := by
    rw [hstate]
    rfl
  have hlogs : (executeSend resp content s).logs =
      s.logs ++ [(msgSending, LogType.info), (sendFailMsg e, LogType.error)] := by
    rw [hstate]
    simp [addLog, setStatus]
  refine ⟨hst, ?_, hlr, hlogs, ?_, ?_, ?_⟩
  · rw [hstate]
    simp [addLog, setStatus]
  · rw [hlogs, List.drop_left]
    simp [List.countP_cons]
  · unfold approve
    rw [if_pos hst, hlr]
  · obtain ⟨m, hm⟩ := deliverLoop_posted_prefix resp
      (splitContent s.lastReport CHUNK_SIZE).length
      (splitContent s.lastReport CHUNK_SIZE) 0
    exact ⟨m, hm⟩

/-- A sink that always throws a network exception "boom". -/
def respFailAll : Nat → SinkResponse := fun _ => SinkResponse.netExn "boom".data

/-- C7 (witness): a concrete failing delivery from the initial state. -/
theorem send_failure_recovery_witness :
    (sendToWeCom respFailAll ['h', 'i']).2.2 = Except.error "boom".data ∧
      (executeSend respFailAll ['h', 'i'] initState).status =
        BotStatus.REVIEWING :=
  ⟨rfl,
    (send_failure_recovery respFailAll ['h', 'i'] initState "boom".data rfl).1⟩

/-- C8: startGeneration is a no-op (entire state unchanged — in particular no
second generation call and no status change) while the status is SEARCHING
or GENERATING; from every other state it proceeds (it always appends at least
one log entry). -/
theorem start_reentrancy_guard (genOutcome : Except (List Char) (List Char))
    (resp : Nat → SinkResponse) (rc : Bool) (apiKey : List Char)
    (s : AppState) :
    ((s.status = BotStatus.SEARCHING ∨ s.status = BotStatus.GENERATING) →
      startGeneration genOutcome resp rc apiKey s = s) ∧
    ((s.status ≠ BotStatus.SEARCHING ∧ s.status ≠ BotStatus.GENERATING) →
      s.logs.length < (startGeneration genOutcome resp rc apiKey s).logs.length) := by
  constructor
  · intro h
    unfold startGeneration
    rw [if_pos h]
  · intro ⟨h1, h2⟩
    unfold startGeneration
    rw [if_neg (not_or.mpr ⟨h1, h2⟩)]
    by_cases hkey : apiKey.isEmpty
    · rw [if_pos hkey]
      simp [addLog, setStatus]
    · rw [if_neg hkey]
      cases genOutcome with
      | ok report =>
        by_cases hrc : rc = true
        · simp only [addLog, setStatus]
          rw [if_pos hrc]
          simp
        · simp only [addLog, setStatus]
          rw [if_neg hrc]
          refine lt_of_lt_of_le ?_
            (le_of_lt (executeSend_logs_lt resp report _))
          simp
      | error e =>
        simp [addLog, setStatus]

/-- A GENERATING state (a run in progress). -/
def s_generating : AppState := ⟨BotStatus.GENERATING, [], [], [], [], 0, []⟩

/-- C8 (witness): start is a no-op from GENERATING and proceeds from
WAITING. -/
theorem start_reentrancy_guard_witness :
    ((s_generating.status = BotStatus.SEARCHING ∨
        s_generating.status = BotStatus.GENERATING) ∧
      startGeneration (Except.ok ['r']) respOkAll true ['k'] s_generating =
        s_generating) ∧
    ((initState.status ≠ BotStatus.SEARCHING ∧
        initState.status ≠ BotStatus.GENERATING) ∧
      initState.logs.length <
        (startGeneration (Except.ok ['r']) respOkAll true ['k']
          initState).logs.length) :=
  ⟨⟨Or.inr rfl,
      (start_reentrancy_guard (Except.ok ['r']) respOkAll true ['k']
        s_generating).1 (Or.inr rfl)⟩,
    ⟨by decide,
      (start_reentrancy_guard (Except.ok ['r']) respOkAll true ['k']
        initState).2 (by decide)⟩⟩

end VaccineWeekly
